import Mathlib

/-!
A shallow embedding of `src/pycfml/cfml.py` (class `CustomFormatDB`).

The data model is the block list held in `self.blocks`: a list of date
blocks, each a date string together with a list of messages, where a
message has the fields time, receiver, sender, content.

The three regular expressions `HEADER_RE`, `MESSAGE_RE`, `END_RE` are
embedded as executable matchers on the characters of a single
(pre-stripped) line, reproducing the anchored-match semantics of
`re.match(...)$` including the backtracking behaviour of the non-greedy
groups.  Machine strings are modelled as Lean `String` (lists of
characters); whitespace is the ASCII whitespace recognised by
`Char.isWhitespace`.
-/

namespace CFML

structure Message where
  time : String
  receiver : String
  sender : String
  content : String
deriving DecidableEq, Repr

structure Block where
  date : String
  messages : List Message
deriving DecidableEq, Repr

abbrev Store := List Block

/-- Python `str.splitlines()` restricted to the ASCII line terminators
`\n`, `\r`, `\r\n`: pieces between terminators, with no trailing empty
piece when the text ends in a terminator. -/
def splitlinesAux : List Char → List Char → List String
  | [], acc => if acc = [] then [] else [String.mk acc.reverse]
  | c :: rest, acc =>
    if c = '\n' then String.mk acc.reverse :: splitlinesAux rest []
    else if c = '\r' then
      String.mk acc.reverse ::
        (match rest with
         | '\n' :: rest2 => splitlinesAux rest2 []
         | rest1 => splitlinesAux rest1 [])
    else splitlinesAux rest (c :: acc)

def splitlines (s : String) : List String := splitlinesAux s.data []

/-- Python `str.strip()` (ASCII whitespace): drop leading and trailing
whitespace characters. -/
def pyStrip (s : String) : String :=
  String.mk (((s.data.dropWhile Char.isWhitespace).reverse.dropWhile Char.isWhitespace).reverse)

/-- `[line.strip() for line in text.splitlines() if line.strip()]`
(cfml.py line 43). -/
def linesOf (text : String) : List String :=
  ((splitlines text).map pyStrip).filter (fun l => l ≠ "")

/-- Match a literal at the start of the character list and return the
remainder (a literal regex fragment). -/
def dropLit (p : List Char) (cs : List Char) : Option (List Char) :=
  if p.isPrefixOf cs then some (cs.drop p.length) else none

/-- `HEADER_RE`: the fixed opening literal of a date header line. -/
def headerPre : List Char := "#$* date -* ".data

/-- `HEADER_RE`: the closing ` \*-\s#\$\*$` — a space, `*-`, one
whitespace character, `#$*`, end of line: exactly seven characters. -/
def headerSufOK : List Char → Bool
  | [a, b, c, w, e, f, g] =>
    a == ' ' && b == '*' && c == '-' && w.isWhitespace && e == '#' && f == '$' && g == '*'
  | _ => false

/-- `HEADER_RE.match(line)`’s `date` group.  After the fixed prefix the
rest of the line is the non-greedy `(?P<date>.*?)` followed by the fixed
seven-character tail, so the split is forced by length; `.` does not
match a newline. -/
def headerMatch (l : String) : Option String :=
  (dropLit headerPre l.data).bind fun rest =>
    if headerSufOK (rest.drop (rest.length - 7)) && (rest.take (rest.length - 7)).all (fun c => c != '\n') then
      some (String.mk (rest.take (rest.length - 7)))
    else none

/-- Backtracking match for `(?P<g>.+?)SEP` followed by a continuation:
try split points left to right (group non-empty, `.` never a newline);
at each point the literal `sep` must follow and the continuation `k`
must succeed on the remainder, otherwise the group is extended — exactly
the order a non-greedy group is tried by the regex engine. -/
def splitFirst {α : Type} (sep : List Char) (k : List Char → Option α) :
    List Char → List Char → Option (List Char × α)
  | _, [] => none
  | acc, c :: cs =>
    if c = '\n' then none
    else
      match (if sep.isPrefixOf cs then k (cs.drop sep.length) else none) with
      | some a => some (acc ++ [c], a)
      | none => splitFirst sep k (acc ++ [c]) cs

/-- `MESSAGE_RE`: trailing ` #\^&\*-$` — six fixed characters at end of
line, so the non-greedy `content` group is forced by length. -/
def endSuf : List Char := " #^&*-".data

def contentMatch (cs : List Char) : Option (List Char) :=
  if cs.drop (cs.length - 6) = endSuf ∧ cs.take (cs.length - 6) ≠ [] ∧
      (cs.take (cs.length - 6)).all (fun c => c != '\n') then
    some (cs.take (cs.length - 6))
  else none

def msgPre : List Char := "@# ".data
def sepTime : List Char := " #@ $# ".data
def sep1 : List Char := " #$ *# ".data
def sep2 : List Char := " #* content -*&^# ".data

/-- `\d{2}:\d{2}:\d{2}` on exactly eight characters. -/
def timeOK (a b c d e f g h : Char) : Bool :=
  a.isDigit && b.isDigit && c == ':' && d.isDigit && e.isDigit && f == ':' &&
    g.isDigit && h.isDigit

/-- `\d{2}:\d{2}:\d{2}`: split the deterministic eight-character time
group off the front, failing unless it has the digit shape. -/
def takeTime : List Char → Option (List Char × List Char)
  | a :: b :: c :: d :: e :: f :: g :: h :: rest =>
    if timeOK a b c d e f g h then some ([a, b, c, d, e, f, g, h], rest) else none
  | _ => none

/-- `MESSAGE_RE.match(line)`: fixed prefix `@# `, the eight-character
time group, the literal ` #@ $# `, then the non-greedy receiver, sender
and content groups separated by the fixed literals. -/
def messageMatch (l : String) : Option Message :=
  (dropLit msgPre l.data).bind fun cs1 =>
    (takeTime cs1).bind fun tr =>
      (dropLit sepTime tr.2).bind fun cs2 =>
        (splitFirst sep1 (fun x => splitFirst sep2 contentMatch [] x) [] cs2).bind fun rsc =>
          some ⟨String.mk tr.1, String.mk rsc.1, String.mk rsc.2.1, String.mk rsc.2.2⟩

def endLine : String := "*$# end *$#"

/-- `END_RE`: the exact literal end-marker line. -/
def endMatch (l : String) : Bool := l == endLine

/-- The per-field check at cfml.py lines 61–63: the first empty group of
a matched message line produces `Missing field: <key>`. -/
def checkFields (m : Message) : Option String :=
  if m.time = "" then some "Missing field: time"
  else if m.receiver = "" then some "Missing field: receiver"
  else if m.sender = "" then some "Missing field: sender"
  else if m.content = "" then some "Missing field: content"
  else none

/-- The observable result of `load`: the content of `self.blocks` after
the call together with the raised error, if any (the method clears
`self.blocks` first and appends each block when its end marker is seen,
so on failure the already-completed blocks remain). -/
structure LoadOutcome where
  blocks : List Block
  error : Option String
deriving DecidableEq, Repr

/-- The scan of cfml.py lines 48–83: one pass over the stripped
non-empty lines, with the currently open block (date and accumulated
messages) as state; `acc` is the current content of `self.blocks`. -/
def loadAux : List String → List Block → Option (String × List Message) → LoadOutcome
  | [], acc, cur =>
    match cur with
    | some _ => ⟨acc, some "Missing 'end' marker for last date block."⟩
    | none => ⟨acc, none⟩
  | line :: rest, acc, cur =>
    match headerMatch line with
    | some d =>
      match cur with
      | some _ => ⟨acc, some "New date block started before 'end' marker."⟩
      | none => loadAux rest acc (some (d, []))
    | none =>
      match messageMatch line with
      | some m =>
        match cur with
        | none => ⟨acc, some "Message found before date header."⟩
        | some (d, msgs) =>
          match checkFields m with
          | some e => ⟨acc, some e⟩
          | none => loadAux rest acc (some (d, msgs ++ [m]))
      | none =>
        if endMatch line then
          match cur with
          | none => ⟨acc, some "End marker found without starting date."⟩
          | some (d, msgs) => loadAux rest (acc ++ [⟨d, msgs⟩]) none
        else ⟨acc, some ("Invalid line format: " ++ line)⟩

/-- `CustomFormatDB.load`: clear `self.blocks`, then scan.  The prior
store content is discarded unconditionally, so the outcome depends only
on the text. -/
def load (text : String) : LoadOutcome := loadAux (linesOf text) [] none

/-- The seven-character tail of a date header line as `dumps` writes it
(`HEADER_RE`'s tail with an ordinary space as the `\s` character). -/
def hdrSuf : List Char := " *- #$*".data

/-- The date-header line emitted by `dumps` (cfml.py line 88). -/
def renderHeader (d : String) : String := "#$* date -* " ++ d ++ " *- #$*"

/-- The message line emitted by `dumps` (cfml.py lines 90–95). -/
def renderMessage (m : Message) : String :=
  "@# " ++ m.time ++ " #@ $# " ++ m.receiver ++ " #$ *# " ++ m.sender ++
    " #* content -*&^# " ++ m.content ++ " #^&*-"

def renderBlockLines (b : Block) : List String :=
  renderHeader b.date :: (b.messages.map renderMessage ++ [endLine])

/-- Python `"\n".join(lines)`. -/
def joinLines : List String → String
  | [] => ""
  | [l] => l
  | l :: ls => l ++ "\n" ++ joinLines ls

/-- `CustomFormatDB.dumps`: the lines of every block in order, joined
with single newlines. -/
def dumps (bs : Store) : String :=
  joinLines (bs.flatMap renderBlockLines)

def mkMsg (t r s c : String) : Message := ⟨t, r, s, c⟩

/-- The merge-or-create loop of `add_message` (cfml.py lines 106–120):
append to the first block with this date, else append a fresh block. -/
def addToBlocks (d t r s c : String) : List Block → List Block
  | [] => [⟨d, [mkMsg t r s c]⟩]
  | b :: bs =>
    if b.date = d then ⟨b.date, b.messages ++ [mkMsg t r s c]⟩ :: bs
    else b :: addToBlocks d t r s c bs

/-- `CustomFormatDB.add_message`: reject any empty argument (in the
field order date, time, receiver, sender, content), else merge or
create.  Returns the store after the call and the raised error. -/
def add_message (st : Store) (d t r s c : String) : Store × Option String :=
  if d = "" then (st, some "Missing required field: date")
  else if t = "" then (st, some "Missing required field: time")
  else if r = "" then (st, some "Missing required field: receiver")
  else if s = "" then (st, some "Missing required field: sender")
  else if c = "" then (st, some "Missing required field: content")
  else (addToBlocks d t r s c st, none)

/-- `CustomFormatDB.delete_date`: keep the blocks with a different date;
a missing date is a no-op. -/
def delete_date (st : Store) (d : String) : Store :=
  st.filter (fun b => b.date != d)

/-- `CustomFormatDB.delete_message`: find the first block with this
date; in range, remove the message at the (int) index, else fail; no
block found fails after the loop.  The store after the call is returned
with the error. -/
def delete_message : Store → String → Int → Store × Option String
  | [], d, _ => ([], some ("No such date block: " ++ d))
  | b :: bs, d, i =>
    if b.date = d then
      if 0 ≤ i ∧ i < (b.messages.length : Int) then
        (⟨b.date, b.messages.eraseIdx i.toNat⟩ :: bs, none)
      else (b :: bs, some ("Invalid message index: " ++ toString i))
    else
      let r := delete_message bs d i
      (b :: r.1, r.2)

def validKey (k : String) : Bool :=
  k == "time" || k == "receiver" || k == "sender" || k == "content"

def setField (m : Message) (k v : String) : Message :=
  if k = "time" then { m with time := v }
  else if k = "receiver" then { m with receiver := v }
  else if k = "sender" then { m with sender := v }
  else if k = "content" then { m with content := v }
  else m

/-- The per-key loop of `edit_message` (cfml.py lines 143–148): in
iteration order, an unknown key or an empty value raises at once, and
the assignments already made to the message stay (the dict is modelled
as an association list in iteration order). -/
def applyUpdates : Message → List (String × String) → Message × Option String
  | m, [] => (m, none)
  | m, (k, v) :: rest =>
    if validKey k = false then (m, some ("Invalid field for edit: " ++ k))
    else if v = "" then (m, some ("Empty value not allowed for " ++ k))
    else applyUpdates (setField m k v) rest

/-- `CustomFormatDB.edit_message`: locate the first block with the date,
check the index, then run the per-key loop on the stored message; the
message keeps whatever the loop assigned even when it raises. -/
def edit_message : Store → String → Int → List (String × String) → Store × Option String
  | [], d, _, _ => ([], some ("No such date block: " ++ d))
  | b :: bs, d, i, us =>
    if b.date = d then
      if 0 ≤ i ∧ i < (b.messages.length : Int) then
        (⟨b.date, b.messages.set i.toNat (applyUpdates (b.messages.getD i.toNat ⟨"", "", "", ""⟩) us).1⟩ :: bs,
          (applyUpdates (b.messages.getD i.toNat ⟨"", "", "", ""⟩) us).2)
      else (b :: bs, some ("Invalid message index: " ++ toString i))
    else
      let r := edit_message bs d i us
      (b :: r.1, r.2)

/-- `CustomFormatDB.list_dates`. -/
def list_dates (st : Store) : List String := st.map Block.date

/-- `CustomFormatDB.list_messages`. -/
def list_messages : Store → String → Except String (List Message)
  | [], d => .error ("No such date block: " ++ d)
  | b :: bs, d => if b.date = d then .ok b.messages else list_messages bs d

/-- One entry of the `search_messages` result list:
`{"date": block["date"], **msg}`. -/
structure SearchHit where
  date : String
  time : String
  receiver : String
  sender : String
  content : String
deriving DecidableEq, Repr

/-- Python `needle in haystack` on strings (substring containment). -/
def infixOf (n : List Char) : List Char → Bool
  | [] => n.isEmpty
  | c :: t => n.isPrefixOf (c :: t) || infixOf n t

/-- The filter of `search_messages` (cfml.py lines 169–174): each
`continue` guard is `if sender and ...`, so a `None` or empty-string
filter imposes no constraint (Python truthiness). -/
def keepMsg (sender receiver text : Option String) (m : Message) : Bool :=
  (match sender with
   | none => true
   | some s => s == "" || m.sender == s) &&
  (match receiver with
   | none => true
   | some r => r == "" || m.receiver == r) &&
  (match text with
   | none => true
   | some t => t == "" || infixOf t.data m.content.data)

/-- `CustomFormatDB.search_messages`: linear scan in block-then-message
order, collecting the messages that pass all three guards, annotated
with the owning date. -/
def search_messages (st : Store) (sender receiver text : Option String) : List SearchHit :=
  st.flatMap (fun b =>
    (b.messages.filter (keepMsg sender receiver text)).map
      (fun m => ⟨b.date, m.time, m.receiver, m.sender, m.content⟩))

/-- The filter as the claim words it: a supplied (`some`) sender or
receiver requires exact string equality — also when the supplied string
is empty; a supplied text requires substring containment. -/
def keepMsgClaim (sender receiver text : Option String) (m : Message) : Bool :=
  (match sender with
   | none => true
   | some s => m.sender == s) &&
  (match receiver with
   | none => true
   | some r => m.receiver == r) &&
  (match text with
   | none => true
   | some t => infixOf t.data m.content.data)

/-- `search_messages` as the claim describes it, for comparison. -/
def search_messages_claim (st : Store) (sender receiver text : Option String) : List SearchHit :=
  st.flatMap (fun b =>
    (b.messages.filter (keepMsgClaim sender receiver text)).map
      (fun m => ⟨b.date, m.time, m.receiver, m.sender, m.content⟩))

/-- Whether a filter actually constrains: supplied and non-empty
(the behaviour the code implements). -/
def filterApplies (f : Option String) : Bool :=
  match f with
  | none => false
  | some s => s != ""

/-- The amended filter: an omitted or empty filter imposes no
constraint; otherwise sender and receiver require exact equality and
text requires substring containment. -/
def keepMsgAmended (sender receiver text : Option String) (m : Message) : Bool :=
  (!filterApplies sender || m.sender == sender.getD "") &&
  (!filterApplies receiver || m.receiver == receiver.getD "") &&
  (!filterApplies text || infixOf (text.getD "").data m.content.data)

def search_messages_amended (st : Store) (sender receiver text : Option String) : List SearchHit :=
  st.flatMap (fun b =>
    (b.messages.filter (keepMsgAmended sender receiver text)).map
      (fun m => ⟨b.date, m.time, m.receiver, m.sender, m.content⟩))

/-- No character of the string is a line feed or carriage return. -/
def noCRLF (s : String) : Prop := ∀ c ∈ s.data, c ≠ '\n' ∧ c ≠ '\r'

/-- A line as `load` sees one: non-empty, fixed under stripping, free of
line terminators. -/
def LineGood (l : String) : Prop := l ≠ "" ∧ pyStrip l = l ∧ noCRLF l

/-- The time string has the exact `\d{2}:\d{2}:\d{2}` shape. -/
def timeShape (t : String) : Bool :=
  match t.data with
  | [a, b, c, d, e, f, g, h] => timeOK a b c d e f g h
  | _ => false

/-- A message whose serialized line parses back to the same message and
contains no line terminator. -/
def MsgWF (m : Message) : Prop :=
  messageMatch (renderMessage m) = some m ∧ noCRLF (renderMessage m)

/-- A block that survives one dumps/load round trip structurally. -/
def BlockWF (b : Block) : Prop :=
  noCRLF b.date ∧ ∀ m ∈ b.messages, MsgWF m

/-- Arguments to `add_message` that serialize to lines `load` parses
back unchanged: all non-empty and free of line terminators, the time in
`HH:MM:SS` digit shape, and receiver and sender free of `#` (so the
non-greedy groups cannot re-split the line at an earlier point). -/
def GoodAdd (d t r s c : String) : Prop :=
  d ≠ "" ∧ noCRLF d ∧ timeShape t = true ∧
  r ≠ "" ∧ noCRLF r ∧ (∀ ch ∈ r.data, ch ≠ '#') ∧
  s ≠ "" ∧ noCRLF s ∧ (∀ ch ∈ s.data, ch ≠ '#') ∧
  c ≠ "" ∧ noCRLF c

/-- Stores built from the empty store by `add_message` calls with
`GoodAdd` arguments (such calls all succeed). -/
inductive BuiltGood : Store → Prop
  | nil : BuiltGood []
  | step (st : Store) (d t r s c : String) : BuiltGood st → GoodAdd d t r s c →
      BuiltGood (add_message st d t r s c).1

/-- Store states reachable from the empty store through the mutation
operations (`add_message`, `delete_date`, `delete_message`,
`edit_message`), whether each call succeeds or fails. -/
inductive Reach : Store → Prop
  | nil : Reach []
  | add (st : Store) (d t r s c : String) : Reach st → Reach (add_message st d t r s c).1
  | del_date (st : Store) (d : String) : Reach st → Reach (delete_date st d)
  | del_msg (st : Store) (d : String) (i : Int) : Reach st → Reach (delete_message st d i).1
  | edit (st : Store) (d : String) (i : Int) (us : List (String × String)) :
      Reach st → Reach (edit_message st d i us).1

/-! ### Basic facts about strings as character lists -/

theorem mk_data (s : String) : String.mk s.data = s := rfl

theorem data_inj {s t : String} (h : s.data = t.data) : s = t := by
  cases s; cases t; exact congrArg String.mk h

theorem ne_empty_of_data {s : String} (h : s.data ≠ []) : s ≠ "" := by
  intro he; exact h (by simp [he])

/-! ### The literal fragment matcher -/

theorem dropLit_self (p r : List Char) : dropLit p (p ++ r) = some r := by
  simp [dropLit, List.isPrefixOf_iff_prefix, List.prefix_append, List.drop_left]

theorem dropLit_sound {p cs r : List Char} (h : dropLit p cs = some r) : cs = p ++ r := by
  unfold dropLit at h
  split at h
  · rename_i hp
    rw [List.isPrefixOf_iff_prefix] at hp
    obtain ⟨t, rfl⟩ := hp
    simp only [List.drop_left, Option.some.injEq] at h
    rw [h]
  · exact absurd h (by simp)

/-! ### The non-greedy group matcher -/

theorem splitFirst_sound {α : Type} (sep : List Char) (k : List Char → Option α) :
    ∀ (cs acc f : List Char) (a : α),
      splitFirst sep k acc cs = some (f, a) →
      ∃ f0 rest, f = acc ++ f0 ∧ f0 ≠ [] ∧ cs = f0 ++ (sep ++ rest) ∧ k rest = some a ∧
        ∀ c ∈ f0, c ≠ '\n' := by
  intro cs
  induction cs with
  | nil => intro acc f a h; simp [splitFirst] at h
  | cons c cs ih =>
    intro acc f a h
    rw [splitFirst] at h
    by_cases hc : c = '\n'
    · simp [hc] at h
    · rw [if_neg hc] at h
      by_cases hp : sep.isPrefixOf cs
      · rw [List.isPrefixOf_iff_prefix] at hp
        obtain ⟨t, rfl⟩ := hp
        rw [if_pos (by rw [List.isPrefixOf_iff_prefix]; exact List.prefix_append sep t)] at h
        rw [List.drop_left] at h
        cases hk : k t with
        | some a2 =>
          rw [hk] at h
          simp only [Option.some.injEq, Prod.mk.injEq] at h
          obtain ⟨hf, ha⟩ := h
          refine ⟨[c], t, by simp [hf], by simp, by simp, by rw [hk, ha], ?_⟩
          intro x hx
          simp at hx
          subst hx
          exact hc
        | none =>
          rw [hk] at h
          obtain ⟨f0, rest, hf, hne, hcs, hkr, hnl⟩ := ih (acc ++ [c]) f a h
          refine ⟨c :: f0, rest, by simp [hf], by simp, by simp [hcs], hkr, ?_⟩
          intro x hx
          rw [List.mem_cons] at hx
          rcases hx with rfl | hx
          · exact hc
          · exact hnl x hx
      · rw [if_neg hp] at h
        obtain ⟨f0, rest, hf, hne, hcs, hkr, hnl⟩ := ih (acc ++ [c]) f a h
        refine ⟨c :: f0, rest, by simp [hf], by simp, by simp [hcs], hkr, ?_⟩
        intro x hx
        rw [List.mem_cons] at hx
        rcases hx with rfl | hx
        · exact hc
        · exact hnl x hx

theorem splitFirst_complete {α : Type} (st2 : List Char) (k : List Char → Option α) :
    ∀ (f acc tail : List Char) (a : α), f ≠ [] →
      (∀ c ∈ f, c ≠ '\n' ∧ c ≠ '#') → k tail = some a →
      splitFirst (' ' :: '#' :: st2) k acc (f ++ ((' ' :: '#' :: st2) ++ tail)) =
        some (acc ++ f, a) := by
  intro f
  induction f with
  | nil => intro acc tail a hne; exact absurd rfl hne
  | cons c f ih =>
    intro acc tail a _ hcs hk
    have hcnl : c ≠ '\n' := (hcs c (by simp)).1
    rw [List.cons_append, splitFirst, if_neg hcnl]
    cases f with
    | nil =>
      rw [List.nil_append]
      rw [if_pos (by rw [List.isPrefixOf_iff_prefix]
                     exact List.prefix_append (' ' :: '#' :: st2) tail)]
      rw [List.drop_left, hk]
    | cons c2 f2 =>
      have hnp : (' ' :: '#' :: st2).isPrefixOf (c2 :: (f2 ++ ((' ' :: '#' :: st2) ++ tail))) = false := by
        by_cases h2 : c2 = ' '
        · subst h2
          cases f2 with
          | nil =>
            have h3 : ('#' == ' ') = false := by decide
            simp [List.isPrefixOf, h3]
          | cons c3 f3 =>
            have hc3 : ('#' == c3) = false := by
              have h4 : c3 ≠ '#' := (hcs c3 (by simp)).2
              exact beq_eq_false_iff_ne.mpr (fun he => h4 he.symm)
            simp [List.isPrefixOf, hc3]
        · have h5 : (' ' == c2) = false :=
            beq_eq_false_iff_ne.mpr (fun he => h2 he.symm)
          simp [List.isPrefixOf, h5]
      rw [List.cons_append, hnp]
      have hih := ih (acc ++ [c]) tail a (by simp)
        (fun x hx => hcs x (List.mem_cons_of_mem c hx)) hk
      simp only [Bool.false_eq_true, if_false]
      rw [List.cons_append] at hih
      rw [hih]
      simp

/-! ### The content tail matcher -/

theorem endSuf_len : endSuf.length = 6 := rfl

theorem contentMatch_sound {cs c : List Char} (h : contentMatch cs = some c) :
    cs = c ++ endSuf ∧ c ≠ [] ∧ ∀ ch ∈ c, ch ≠ '\n' := by
  unfold contentMatch at h
  split at h
  · rename_i hcond
    obtain ⟨h1, h2, h3⟩ := hcond
    simp only [Option.some.injEq] at h
    subst h
    refine ⟨?_, h2, ?_⟩
    · conv_lhs => rw [← List.take_append_drop (cs.length - 6) cs]
      rw [h1]
    · intro ch hch
      have := (List.all_eq_true.mp h3) ch hch
      simpa using this
  · exact absurd h (by simp)

theorem contentMatch_complete {c : List Char} (hne : c ≠ []) (hnl : ∀ ch ∈ c, ch ≠ '\n') :
    contentMatch (c ++ endSuf) = some c := by
  have hlen : (c ++ endSuf).length - 6 = c.length := by
    rw [List.length_append, endSuf_len]
    omega
  have ht : (c ++ endSuf).take ((c ++ endSuf).length - 6) = c := by
    rw [hlen, List.take_left]
  have hd : (c ++ endSuf).drop ((c ++ endSuf).length - 6) = endSuf := by
    rw [hlen, List.drop_left]
  unfold contentMatch
  rw [if_pos ⟨by rw [hd], by rw [ht]; exact hne, by
    rw [ht, List.all_eq_true]
    intro ch hch
    simpa using hnl ch hch⟩]
  rw [ht]

/-! ### The header matcher -/

theorem headerMatch_sound {l d : String} (h : headerMatch l = some d) :
    ∀ c ∈ d.data, c ∈ l.data ∧ c ≠ '\n' := by
  unfold headerMatch at h
  rw [Option.bind_eq_some] at h
  obtain ⟨rest, hdl, h⟩ := h
  split at h
  · rename_i hcond
    rw [Bool.and_eq_true] at hcond
    simp only [Option.some.injEq] at h
    subst h
    intro c hc
    have hc2 : c ∈ rest.take (rest.length - 7) := hc
    have hmem : c ∈ rest := List.take_subset _ _ hc2
    have hl : l.data = headerPre ++ rest := dropLit_sound hdl
    refine ⟨by rw [hl]; exact List.mem_append_right _ hmem, ?_⟩
    have := (List.all_eq_true.mp hcond.2) c hc2
    simpa using this
  · exact absurd h (by simp)

theorem hdrSuf_len : hdrSuf.length = 7 := rfl

theorem headerSufOK_hdrSuf : headerSufOK hdrSuf = true := rfl

theorem headerMatch_render (d : String) (hd : ∀ c ∈ d.data, c ≠ '\n') :
    headerMatch (renderHeader d) = some d := by
  have hdata : (renderHeader d).data = headerPre ++ (d.data ++ hdrSuf) := by
    simp [renderHeader, headerPre, hdrSuf, String.data_append]
  have hlen : (d.data ++ hdrSuf).length - 7 = d.data.length := by
    rw [List.length_append, hdrSuf_len]
    omega
  have ht : (d.data ++ hdrSuf).take ((d.data ++ hdrSuf).length - 7) = d.data := by
    rw [hlen, List.take_left]
  have hdr : (d.data ++ hdrSuf).drop ((d.data ++ hdrSuf).length - 7) = hdrSuf := by
    rw [hlen, List.drop_left]
  unfold headerMatch
  rw [hdata, dropLit_self, Option.some_bind, ht, hdr]
  rw [if_pos (by
    rw [Bool.and_eq_true]
    refine ⟨headerSufOK_hdrSuf, ?_⟩
    rw [List.all_eq_true]
    intro c hc
    simpa using hd c hc)]

/-! ### The message matcher -/

theorem data_ne_of_ne {s : String} (h : s ≠ "") : s.data ≠ [] := by
  intro hd
  exact h (data_inj (by simp [hd]))

theorem digit_ne {c : Char} (h : c.isDigit = true) : c ≠ '\n' ∧ c ≠ '\r' := by
  constructor <;> (intro he; subst he; exact absurd h (by decide))

theorem takeTime_sound {cs : List Char} {tr : List Char × List Char}
    (h : takeTime cs = some tr) :
    cs = tr.1 ++ tr.2 ∧ tr.1 ≠ [] ∧ timeShape (String.mk tr.1) = true ∧
      ∀ c ∈ tr.1, c ≠ '\n' ∧ c ≠ '\r' := by
  unfold takeTime at h
  split at h
  · rename_i a b c d e f g h8 rest
    split at h
    · rename_i hok
      simp only [Option.some.injEq] at h
      subst h
      refine ⟨by simp, by simp, ?_, ?_⟩
      · unfold timeShape
        simpa using hok
      · simp only [timeOK, Bool.and_eq_true, beq_iff_eq] at hok
        intro x hx
        simp only [List.mem_cons, List.not_mem_nil, or_false] at hx
        rcases hx with rfl | rfl | rfl | rfl | rfl | rfl | rfl | rfl
        · exact digit_ne hok.1.1.1.1.1.1.1
        · exact digit_ne hok.1.1.1.1.1.1.2
        · rw [hok.1.1.1.1.1.2]; exact ⟨by decide, by decide⟩
        · exact digit_ne hok.1.1.1.1.2
        · exact digit_ne hok.1.1.1.2
        · rw [hok.1.1.2]; exact ⟨by decide, by decide⟩
        · exact digit_ne hok.1.2
        · exact digit_ne hok.2
    · exact absurd h (by simp)
  · exact absurd h (by simp)

theorem takeTime_complete {t : String} (ht : timeShape t = true) (rest : List Char) :
    takeTime (t.data ++ rest) = some (t.data, rest) := by
  unfold timeShape at ht
  split at ht
  · rename_i a b c d e f g h8 heq
    rw [heq]
    simp only [List.cons_append, List.nil_append]
    simp [takeTime, ht]
  · exact absurd ht (by simp)

theorem renderMessage_data (m : Message) :
    (renderMessage m).data =
      msgPre ++ (m.time.data ++ (sepTime ++ (m.receiver.data ++ (sep1 ++ (m.sender.data ++
        (sep2 ++ (m.content.data ++ endSuf))))))) := by
  simp [renderMessage, msgPre, sepTime, sep1, sep2, endSuf, String.data_append]

theorem messageMatch_sound {l : String} {m : Message} (h : messageMatch l = some m) :
    renderMessage m = l ∧ m.time ≠ "" ∧ m.receiver ≠ "" ∧ m.sender ≠ "" ∧ m.content ≠ "" := by
  unfold messageMatch at h
  rw [Option.bind_eq_some] at h
  obtain ⟨cs1, h1, h⟩ := h
  rw [Option.bind_eq_some] at h
  obtain ⟨tr, h2, h⟩ := h
  rw [Option.bind_eq_some] at h
  obtain ⟨cs2, h3, h⟩ := h
  rw [Option.bind_eq_some] at h
  obtain ⟨rsc, h4, h⟩ := h
  simp only [Option.some.injEq] at h
  subst h
  obtain ⟨hcs1, htne, hts, htchars⟩ := takeTime_sound h2
  have h4' : splitFirst sep1 (fun x => splitFirst sep2 contentMatch [] x) [] cs2 =
      some (rsc.1, rsc.2) := h4
  obtain ⟨r0, rest1, hr0, hrne, hcs2, hks, hrnl⟩ :=
    splitFirst_sound _ _ _ _ _ _ h4'
  have hks' : splitFirst sep2 contentMatch [] rest1 = some (rsc.2.1, rsc.2.2) := hks
  obtain ⟨s0, rest2, hs0, hsne, hrest1, hkc, hsnl⟩ :=
    splitFirst_sound _ _ _ _ _ _ hks'
  obtain ⟨hrest2, hcne, hcnl⟩ := contentMatch_sound hkc
  rw [List.nil_append] at hr0 hs0
  subst hr0 hs0
  have hldata : l.data = msgPre ++ (tr.1 ++ (sepTime ++ (rsc.1 ++ (sep1 ++ (rsc.2.1 ++
      (sep2 ++ (rsc.2.2 ++ endSuf))))))) := by
    rw [dropLit_sound h1, hcs1, dropLit_sound h3, hcs2, hrest1, hrest2]
  constructor
  · apply data_inj
    rw [renderMessage_data, hldata]
  refine ⟨ne_empty_of_data (by simpa using htne), ne_empty_of_data (by simpa using hrne),
    ne_empty_of_data (by simpa using hsne), ne_empty_of_data (by simpa using hcne)⟩

theorem sep1_cons : sep1 = ' ' :: '#' :: "$ *# ".data := by decide

theorem sep2_cons : sep2 = ' ' :: '#' :: "* content -*&^# ".data := by decide

theorem messageMatch_render (m : Message) (ht : timeShape m.time = true)
    (hr : m.receiver ≠ "") (hs : m.sender ≠ "") (hc : m.content ≠ "")
    (hrc : ∀ c ∈ m.receiver.data, c ≠ '\n' ∧ c ≠ '#')
    (hsc : ∀ c ∈ m.sender.data, c ≠ '\n' ∧ c ≠ '#')
    (hcc : ∀ c ∈ m.content.data, c ≠ '\n') :
    messageMatch (renderMessage m) = some m := by
  have hinner : splitFirst sep2 contentMatch []
      (m.sender.data ++ (sep2 ++ (m.content.data ++ endSuf))) =
      some (m.sender.data, m.content.data) := by
    rw [sep2_cons]
    have := splitFirst_complete "* content -*&^# ".data contentMatch m.sender.data []
      (m.content.data ++ endSuf) m.content.data (data_ne_of_ne hs) hsc
      (contentMatch_complete (data_ne_of_ne hc) hcc)
    simpa using this
  have houter : splitFirst sep1 (fun x => splitFirst sep2 contentMatch [] x) []
      (m.receiver.data ++ (sep1 ++ (m.sender.data ++ (sep2 ++ (m.content.data ++ endSuf))))) =
      some (m.receiver.data, m.sender.data, m.content.data) := by
    rw [sep1_cons]
    have := splitFirst_complete "$ *# ".data (fun x => splitFirst sep2 contentMatch [] x)
      m.receiver.data [] (m.sender.data ++ (sep2 ++ (m.content.data ++ endSuf)))
      (m.sender.data, m.content.data) (data_ne_of_ne hr) hrc (by simpa using hinner)
    simpa using this
  unfold messageMatch
  rw [renderMessage_data, dropLit_self]
  simp only [Option.some_bind]
  rw [takeTime_complete ht]
  simp only [Option.some_bind]
  rw [dropLit_self]
  simp only [Option.some_bind]
  rw [houter]
  simp only [Option.some_bind, mk_data]

/-! ### Non-matching line shapes -/

theorem headerMatch_not {l : String} {c0 : Char} {cs : List Char}
    (hl : l.data = c0 :: cs) (hc : c0 ≠ '#') : headerMatch l = none := by
  unfold headerMatch
  rw [hl]
  have hp : headerPre = '#' :: "$* date -* ".data := by decide
  have hb : ('#' == c0) = false := beq_eq_false_iff_ne.mpr (fun he => hc he.symm)
  have : dropLit headerPre (c0 :: cs) = none := by
    unfold dropLit
    rw [if_neg (by rw [hp]; simp [List.isPrefixOf, hb])]
  rw [this, Option.none_bind]

theorem messageMatch_not {l : String} {c0 : Char} {cs : List Char}
    (hl : l.data = c0 :: cs) (hc : c0 ≠ '@') : messageMatch l = none := by
  unfold messageMatch
  rw [hl]
  have hp : msgPre = '@' :: "# ".data := by decide
  have hb : ('@' == c0) = false := beq_eq_false_iff_ne.mpr (fun he => hc he.symm)
  have : dropLit msgPre (c0 :: cs) = none := by
    unfold dropLit
    rw [if_neg (by rw [hp]; simp [List.isPrefixOf, hb])]
  rw [this, Option.none_bind]

theorem renderMessage_head (m : Message) :
    (renderMessage m).data = '@' :: ("# ".data ++ (m.time.data ++ (sepTime ++ (m.receiver.data ++
      (sep1 ++ (m.sender.data ++ (sep2 ++ (m.content.data ++ endSuf)))))))) := by
  rw [renderMessage_data]
  rfl

theorem headerMatch_msgline (m : Message) : headerMatch (renderMessage m) = none :=
  headerMatch_not (renderMessage_head m) (by decide)

theorem headerMatch_endline : headerMatch endLine = none := by decide

theorem messageMatch_endline : messageMatch endLine = none := by decide

theorem endMatch_endline : endMatch endLine = true := rfl

theorem checkFields_none {m : Message} (ht : m.time ≠ "") (hr : m.receiver ≠ "")
    (hs : m.sender ≠ "") (hc : m.content ≠ "") : checkFields m = none := by
  simp [checkFields, ht, hr, hs, hc]

/-! ### Lines: splitting, stripping, joining -/

theorem data_mk (cs : List Char) : (String.mk cs).data = cs := rfl

theorem mem_dropWhile {p : Char → Bool} {l : List Char} {c : Char}
    (h : c ∈ l.dropWhile p) : c ∈ l := by
  have hsplit := List.takeWhile_append_dropWhile p l
  rw [← hsplit]
  exact List.mem_append_right _ h

theorem dropWhile_shape (p : Char → Bool) (l : List Char) :
    l.dropWhile p = [] ∨ ∃ c t, l.dropWhile p = c :: t ∧ p c = false := by
  induction l with
  | nil => exact Or.inl rfl
  | cons c l ih =>
    rw [List.dropWhile_cons]
    by_cases hc : p c = true
    · rw [if_pos hc]; exact ih
    · rw [if_neg hc]
      exact Or.inr ⟨c, l, rfl, by simpa using hc⟩

theorem pyStrip_subset (s : String) : ∀ c ∈ (pyStrip s).data, c ∈ s.data := by
  intro c hc
  unfold pyStrip at hc
  rw [data_mk, List.mem_reverse] at hc
  have h1 := mem_dropWhile hc
  rw [List.mem_reverse] at h1
  exact mem_dropWhile h1

theorem pyStrip_idem (s : String) : pyStrip (pyStrip s) = pyStrip s := by
  unfold pyStrip
  rw [data_mk]
  rcases dropWhile_shape Char.isWhitespace (s.data.dropWhile Char.isWhitespace).reverse with hv |
    ⟨c, t, hv, hc⟩
  · rw [hv]
    simp
  · rw [hv]
    have hpre : (s.data.dropWhile Char.isWhitespace) = (c :: t).reverse ++
        ((s.data.dropWhile Char.isWhitespace).reverse.takeWhile Char.isWhitespace).reverse := by
      conv_lhs => rw [← List.reverse_reverse (s.data.dropWhile Char.isWhitespace)]
      conv_lhs =>
        rw [← List.takeWhile_append_dropWhile Char.isWhitespace
          (s.data.dropWhile Char.isWhitespace).reverse]
      rw [hv, List.reverse_append]
    have hstep1 : (c :: t).reverse.dropWhile Char.isWhitespace = (c :: t).reverse := by
      rcases dropWhile_shape Char.isWhitespace s.data with hu | ⟨d, t2, hu, hd⟩
      · rw [hu] at hpre
        exact absurd hpre.symm (by simp)
      · rw [hu] at hpre
        cases hrev : (c :: t).reverse with
        | nil => exact absurd (congrArg List.length hrev) (by simp)
        | cons e t3 =>
          rw [hrev] at hpre
          have he : e = d := by
            have := hpre
            simp only [List.cons_append] at this
            exact (List.cons.injEq _ _ _ _ ▸ this).1.symm
          rw [List.dropWhile_cons, if_neg (by rw [he]; simp [hd])]
    rw [hstep1, List.reverse_reverse, List.dropWhile_cons, if_neg (by simp [hc])]

theorem pyStrip_fix {l : String} {c1 c2 : Char} {mid : List Char}
    (h : l.data = c1 :: (mid ++ [c2])) (h1 : c1.isWhitespace = false)
    (h2 : c2.isWhitespace = false) : pyStrip l = l := by
  have e1 : (c1 :: (mid ++ [c2])).dropWhile Char.isWhitespace = c1 :: (mid ++ [c2]) := by
    rw [List.dropWhile_cons, if_neg (by simp [h1])]
  have e2 : (c1 :: (mid ++ [c2])).reverse = c2 :: (mid.reverse ++ [c1]) := by
    simp
  have e3 : (c2 :: (mid.reverse ++ [c1])).dropWhile Char.isWhitespace =
      c2 :: (mid.reverse ++ [c1]) := by
    rw [List.dropWhile_cons, if_neg (by simp [h2])]
  unfold pyStrip
  rw [h, e1, e2, e3]
  apply data_inj
  rw [data_mk, h]
  simp

theorem splitlinesAux_push {c : Char} (hc1 : c ≠ '\n') (hc2 : c ≠ '\r') (rest acc : List Char) :
    splitlinesAux (c :: rest) acc = splitlinesAux rest (c :: acc) := by
  conv_lhs => rw [splitlinesAux.eq_def]
  simp [hc1, hc2]

theorem splitlinesAux_nl (rest acc : List Char) :
    splitlinesAux ('\n' :: rest) acc = String.mk acc.reverse :: splitlinesAux rest [] := by
  conv_lhs => rw [splitlinesAux.eq_def]
  simp

theorem splitlinesAux_line : ∀ (l : List Char), (∀ c ∈ l, c ≠ '\n' ∧ c ≠ '\r') →
    ∀ (acc rest : List Char),
    splitlinesAux (l ++ '\n' :: rest) acc = String.mk (acc.reverse ++ l) :: splitlinesAux rest [] := by
  intro l
  induction l with
  | nil =>
    intro _ acc rest
    rw [List.nil_append, splitlinesAux_nl, List.append_nil]
  | cons c l ih =>
    intro hl acc rest
    rw [List.cons_append, splitlinesAux_push (hl c (by simp)).1 (hl c (by simp)).2]
    rw [ih (fun x hx => hl x (List.mem_cons_of_mem c hx)) (c :: acc) rest]
    simp

theorem splitlinesAux_last : ∀ (l : List Char), (∀ c ∈ l, c ≠ '\n' ∧ c ≠ '\r') →
    ∀ (acc : List Char), acc.reverse ++ l ≠ [] →
    splitlinesAux l acc = [String.mk (acc.reverse ++ l)] := by
  intro l
  induction l with
  | nil =>
    intro _ acc hne
    rw [List.append_nil] at hne
    show (if acc = [] then [] else [String.mk acc.reverse]) = [String.mk (acc.reverse ++ [])]
    rw [if_neg (by intro he; rw [he] at hne; exact hne (by simp)), List.append_nil]
  | cons c l ih =>
    intro hl acc _
    rw [splitlinesAux_push (hl c (by simp)).1 (hl c (by simp)).2]
    rw [ih (fun x hx => hl x (List.mem_cons_of_mem c hx)) (c :: acc) (by simp)]
    simp

theorem splitlines_joinLines : ∀ (ls : List String), (∀ l ∈ ls, l ≠ "" ∧ noCRLF l) →
    splitlines (joinLines ls) = ls := by
  intro ls
  induction ls with
  | nil => intro _; simp [joinLines, splitlines, splitlinesAux]
  | cons l ls ih =>
    intro h
    cases ls with
    | nil =>
      show splitlinesAux l.data [] = [l]
      rw [splitlinesAux_last l.data (fun c hc => (h l (by simp)).2 c hc) []
        (by simpa using data_ne_of_ne (h l (by simp)).1)]
      simp [mk_data]
    | cons l2 ls2 =>
      have hj : (joinLines (l :: l2 :: ls2)).data = l.data ++ ('\n' :: (joinLines (l2 :: ls2)).data) := by
        show (l ++ "\n" ++ joinLines (l2 :: ls2)).data = _
        rw [String.data_append, String.data_append]
        simp
      show splitlinesAux (joinLines (l :: l2 :: ls2)).data [] = l :: l2 :: ls2
      rw [hj, splitlinesAux_line l.data (fun c hc => (h l (by simp)).2 c hc) []]
      have hrest := ih (fun x hx => h x (List.mem_cons_of_mem l hx))
      rw [show splitlinesAux (joinLines (l2 :: ls2)).data [] = splitlines (joinLines (l2 :: ls2)) from rfl]
      rw [hrest]
      simp [mk_data]

/-! ### The lines `load` scans -/

theorem splitlinesAux_nil_mem {acc : List Char} (hacc : ∀ c ∈ acc, c ≠ '\n' ∧ c ≠ '\r') :
    ∀ l ∈ splitlinesAux [] acc, noCRLF l := by
  intro l hl
  by_cases ha : acc = []
  · rw [show splitlinesAux [] acc = if acc = [] then [] else [String.mk acc.reverse] from rfl,
      if_pos ha] at hl
    exact absurd hl (by simp)
  · rw [show splitlinesAux [] acc = if acc = [] then [] else [String.mk acc.reverse] from rfl,
      if_neg ha] at hl
    rw [List.mem_singleton] at hl
    subst hl
    intro c hc
    rw [data_mk, List.mem_reverse] at hc
    exact hacc c hc

theorem splitlinesAux_noCRLF_aux : ∀ (n : Nat) (cs : List Char), cs.length ≤ n →
    ∀ (acc : List Char), (∀ c ∈ acc, c ≠ '\n' ∧ c ≠ '\r') →
    ∀ l ∈ splitlinesAux cs acc, noCRLF l := by
  intro n
  induction n with
  | zero =>
    intro cs hlen acc hacc
    have : cs = [] := List.eq_nil_of_length_eq_zero (Nat.le_zero.mp hlen)
    subst this
    exact splitlinesAux_nil_mem hacc
  | succ n ih =>
    intro cs hlen acc hacc l hl
    cases cs with
    | nil => exact splitlinesAux_nil_mem hacc l hl
    | cons c rest =>
      rw [List.length_cons, Nat.succ_le_succ_iff] at hlen
      by_cases hc1 : c = '\n'
      · subst hc1
        rw [splitlinesAux_nl] at hl
        rcases List.mem_cons.mp hl with rfl | hl
        · intro x hx
          rw [data_mk, List.mem_reverse] at hx
          exact hacc x hx
        · exact ih rest hlen [] (by simp) l hl
      · by_cases hc2 : c = '\r'
        · subst hc2
          cases rest with
          | nil =>
            have he : splitlinesAux ['\r'] acc = [String.mk acc.reverse] := by
              simp [splitlinesAux]
            rw [he, List.mem_singleton] at hl
            subst hl
            intro x hx
            rw [data_mk, List.mem_reverse] at hx
            exact hacc x hx
          | cons r0 rs =>
            by_cases hr : r0 = '\n'
            · subst hr
              have he : splitlinesAux ('\r' :: '\n' :: rs) acc =
                  String.mk acc.reverse :: splitlinesAux rs [] := by
                simp [splitlinesAux]
              rw [he] at hl
              rcases List.mem_cons.mp hl with rfl | hl
              · intro x hx
                rw [data_mk, List.mem_reverse] at hx
                exact hacc x hx
              · exact ih rs (by simp at hlen; omega) [] (by simp) l hl
            · have he : splitlinesAux ('\r' :: r0 :: rs) acc =
                  String.mk acc.reverse :: splitlinesAux (r0 :: rs) [] := by
                simp [splitlinesAux, hr]
              rw [he] at hl
              rcases List.mem_cons.mp hl with rfl | hl
              · intro x hx
                rw [data_mk, List.mem_reverse] at hx
                exact hacc x hx
              · exact ih (r0 :: rs) hlen [] (by simp) l hl
        · rw [splitlinesAux_push hc1 hc2] at hl
          refine ih rest hlen (c :: acc) ?_ l hl
          intro x hx
          rcases List.mem_cons.mp hx with rfl | hx
          · exact ⟨hc1, hc2⟩
          · exact hacc x hx

theorem splitlinesAux_noCRLF (cs acc : List Char)
    (hacc : ∀ c ∈ acc, c ≠ '\n' ∧ c ≠ '\r') :
    ∀ l ∈ splitlinesAux cs acc, noCRLF l :=
  splitlinesAux_noCRLF_aux cs.length cs (Nat.le_refl _) acc hacc

theorem linesOf_good (t : String) : ∀ l ∈ linesOf t, LineGood l := by
  intro l hl
  unfold linesOf at hl
  rw [List.mem_filter] at hl
  obtain ⟨hmap, hne⟩ := hl
  rw [List.mem_map] at hmap
  obtain ⟨l0, hl0, rfl⟩ := hmap
  refine ⟨by simpa using hne, pyStrip_idem l0, ?_⟩
  intro c hc
  exact splitlinesAux_noCRLF t.data [] (by simp) l0 hl0 c (pyStrip_subset l0 c hc)

/-! ### Scanning serialized lines -/

theorem loadAux_msgs : ∀ (msgs done : List Message) (d : String)
    (rest : List String) (acc : List Block),
    (∀ m ∈ msgs, messageMatch (renderMessage m) = some m) →
    loadAux (msgs.map renderMessage ++ (endLine :: rest)) acc (some (d, done)) =
      loadAux rest (acc ++ [⟨d, done ++ msgs⟩]) none := by
  intro msgs
  induction msgs with
  | nil =>
    intro done d rest acc _
    rw [List.map_nil, List.nil_append, loadAux, headerMatch_endline, messageMatch_endline]
    simp [endMatch_endline]
  | cons m ms ih =>
    intro done d rest acc hm
    have hmm : messageMatch (renderMessage m) = some m := hm m (by simp)
    obtain ⟨_, ht, hr, hs, hc⟩ := messageMatch_sound hmm
    rw [List.map_cons, List.cons_append]
    simp only [loadAux, headerMatch_msgline, hmm, checkFields_none ht hr hs hc]
    rw [ih (done ++ [m]) d rest acc (fun x hx => hm x (List.mem_cons_of_mem m hx))]
    simp

theorem loadAux_blocks : ∀ (bs : List Block) (rest : List String) (acc : List Block),
    (∀ b ∈ bs, BlockWF b) →
    loadAux (bs.flatMap renderBlockLines ++ rest) acc none = loadAux rest (acc ++ bs) none := by
  intro bs
  induction bs with
  | nil => intro rest acc _; simp
  | cons b bs ih =>
    intro rest acc hwf
    obtain ⟨hdate, hmsgs⟩ := hwf b (by simp)
    have hflat : (b :: bs).flatMap renderBlockLines =
        renderHeader b.date :: ((b.messages.map renderMessage ++ [endLine]) ++
          bs.flatMap renderBlockLines) := rfl
    rw [hflat, List.cons_append]
    simp only [loadAux, headerMatch_render b.date (fun c hc => (hdate c hc).1)]
    have hassoc : ((b.messages.map renderMessage ++ [endLine]) ++ bs.flatMap renderBlockLines) ++ rest =
        b.messages.map renderMessage ++ (endLine :: (bs.flatMap renderBlockLines ++ rest)) := by
      simp
    rw [hassoc, loadAux_msgs b.messages [] b.date (bs.flatMap renderBlockLines ++ rest) acc
      (fun m hm => (hmsgs m hm).1)]
    rw [List.nil_append]
    show loadAux (bs.flatMap renderBlockLines ++ rest) (acc ++ [b]) none =
      loadAux rest (acc ++ b :: bs) none
    rw [ih rest (acc ++ [b]) (fun x hx => hwf x (List.mem_cons_of_mem b hx))]
    simp

/-! ### Serialized lines are good lines -/

theorem noCRLF_renderHeader {d : String} (hd : noCRLF d) : noCRLF (renderHeader d) := by
  have hpre : ∀ x ∈ headerPre, x ≠ '\n' ∧ x ≠ '\r' := by decide
  have hsuf : ∀ x ∈ hdrSuf, x ≠ '\n' ∧ x ≠ '\r' := by decide
  intro c hc
  have hdata : (renderHeader d).data = headerPre ++ (d.data ++ hdrSuf) := by
    simp [renderHeader, headerPre, hdrSuf, String.data_append]
  rw [hdata] at hc
  rcases List.mem_append.mp hc with h | h
  · exact hpre c h
  · rcases List.mem_append.mp h with h | h
    · exact hd c h
    · exact hsuf c h

theorem lineGood_renderHeader {d : String} (hd : noCRLF d) : LineGood (renderHeader d) := by
  have hdata : (renderHeader d).data = '#' :: (("$* date -* ".data ++ (d.data ++ " *- #$".data)) ++ ['*']) := by
    have h1 : (renderHeader d).data = headerPre ++ (d.data ++ hdrSuf) := by
      simp [renderHeader, headerPre, hdrSuf, String.data_append]
    rw [h1]
    simp [headerPre, hdrSuf]
  refine ⟨ne_empty_of_data (by rw [hdata]; simp), ?_, noCRLF_renderHeader hd⟩
  exact pyStrip_fix hdata (by decide) (by decide)

theorem lineGood_renderMessage {m : Message} (hm : noCRLF (renderMessage m)) :
    LineGood (renderMessage m) := by
  have hdata : (renderMessage m).data = '@' :: ((("# ".data ++ (m.time.data ++ (sepTime ++
      (m.receiver.data ++ (sep1 ++ (m.sender.data ++ (sep2 ++ m.content.data))))))) ++
        " #^&*".data) ++ ['-']) := by
    rw [renderMessage_data]
    simp [msgPre, endSuf]
  exact ⟨ne_empty_of_data (by rw [hdata]; simp), pyStrip_fix hdata (by decide) (by decide), hm⟩

theorem lineGood_endLine : LineGood endLine := by
  refine ⟨by decide, ?_, by unfold noCRLF; decide⟩
  exact pyStrip_fix (show endLine.data = '*' :: ("$# end *$".data ++ ['#']) from rfl)
    (by decide) (by decide)

theorem blockLines_good {b : Block} (hb : BlockWF b) : ∀ l ∈ renderBlockLines b, LineGood l := by
  intro l hl
  unfold renderBlockLines at hl
  rcases List.mem_cons.mp hl with rfl | hl
  · exact lineGood_renderHeader hb.1
  · rcases List.mem_append.mp hl with hl | hl
    · rw [List.mem_map] at hl
      obtain ⟨m, hm, rfl⟩ := hl
      exact lineGood_renderMessage ((hb.2 m hm).2)
    · rw [List.mem_singleton] at hl
      subst hl
      exact lineGood_endLine

theorem linesOf_dumps {bs : Store} (h : ∀ b ∈ bs, BlockWF b) :
    linesOf (dumps bs) = bs.flatMap renderBlockLines := by
  have hgood : ∀ l ∈ bs.flatMap renderBlockLines, LineGood l := by
    intro l hl
    rw [List.mem_flatMap] at hl
    obtain ⟨b, hb, hl⟩ := hl
    exact blockLines_good (h b hb) l hl
  unfold linesOf dumps
  rw [splitlines_joinLines _ (fun l hl => ⟨(hgood l hl).1, (hgood l hl).2.2⟩)]
  have hmap : (bs.flatMap renderBlockLines).map pyStrip = bs.flatMap renderBlockLines := by
    rw [List.map_congr_left (fun l hl => (hgood l hl).2.1)]
    exact List.map_id _
  rw [hmap]
  rw [List.filter_eq_self.mpr]
  intro l hl
  simpa using (hgood l hl).1

/-- Round trip at the store level: a store of well-formed blocks is
reproduced exactly by `load` after `dumps`. -/
theorem load_dumps {bs : Store} (h : ∀ b ∈ bs, BlockWF b) : load (dumps bs) = ⟨bs, none⟩ := by
  unfold load
  rw [linesOf_dumps h]
  have := loadAux_blocks bs [] [] h
  rw [List.append_nil] at this
  rw [this]
  rfl

/-! ### What a successful load produces -/

theorem loadAux_wf : ∀ (lines : List String) (acc : List Block)
    (cur : Option (String × List Message)),
    (∀ l ∈ lines, LineGood l) →
    (∀ b ∈ acc, BlockWF b) →
    (∀ d msgs, cur = some (d, msgs) → noCRLF d ∧ ∀ m ∈ msgs, MsgWF m) →
    (loadAux lines acc cur).error = none →
    ∀ b ∈ (loadAux lines acc cur).blocks, BlockWF b := by
  intro lines
  induction lines with
  | nil =>
    intro acc cur _ hacc hcur herr b hb
    rcases cur with _ | ⟨d, msgs⟩
    · simp only [loadAux] at hb
      exact hacc b hb
    · simp only [loadAux] at herr
      exact absurd herr (by simp)
  | cons line rest ih =>
    intro acc cur hlines hacc hcur herr b hb
    have hline : LineGood line := hlines line (by simp)
    have hrest : ∀ l ∈ rest, LineGood l := fun l hl => hlines l (List.mem_cons_of_mem _ hl)
    cases hh : headerMatch line with
    | some d =>
      have hdwf : noCRLF d := fun c hc =>
        ⟨(headerMatch_sound hh c hc).2, (hline.2.2 c (headerMatch_sound hh c hc).1).2⟩
      rcases cur with _ | ⟨d0, msgs0⟩
      · simp only [loadAux, hh] at herr hb
        refine ih acc (some (d, [])) hrest hacc ?_ herr b hb
        intro d2 msgs2 he
        simp only [Option.some.injEq, Prod.mk.injEq] at he
        obtain ⟨h1, h2⟩ := he
        subst h1
        subst h2
        exact ⟨hdwf, by simp⟩
      · simp only [loadAux, hh] at herr
        exact absurd herr (by simp)
    | none =>
      cases hm : messageMatch line with
      | some m =>
        obtain ⟨hrender, ht, hr, hs, hc⟩ := messageMatch_sound hm
        have hmwf : MsgWF m :=
          ⟨by rw [hrender]; exact hm, by rw [hrender]; exact hline.2.2⟩
        rcases cur with _ | ⟨d0, msgs0⟩
        · simp only [loadAux, hh, hm] at herr
          exact absurd herr (by simp)
        · have hcf : checkFields m = none := checkFields_none ht hr hs hc
          simp only [loadAux, hh, hm, hcf] at herr hb
          refine ih acc (some (d0, msgs0 ++ [m])) hrest hacc ?_ herr b hb
          intro d2 msgs2 he
          simp only [Option.some.injEq, Prod.mk.injEq] at he
          obtain ⟨h1, h2⟩ := he
          subst h1
          subst h2
          refine ⟨(hcur d0 msgs0 rfl).1, ?_⟩
          intro m2 hm2
          rcases List.mem_append.mp hm2 with hm2 | hm2
          · exact (hcur d0 msgs0 rfl).2 m2 hm2
          · rw [List.mem_singleton] at hm2
            subst hm2
            exact hmwf
      | none =>
        cases he : endMatch line with
        | true =>
          rcases cur with _ | ⟨d0, msgs0⟩
          · simp only [loadAux, hh, hm, he] at herr
            exact absurd herr (by simp)
          · simp only [loadAux, hh, hm, he, if_true] at herr hb
            refine ih (acc ++ [⟨d0, msgs0⟩]) none hrest ?_ (fun _ _ h2 => Option.noConfusion h2)
              herr b hb
            intro b2 hb2
            rcases List.mem_append.mp hb2 with hb2 | hb2
            · exact hacc b2 hb2
            · rw [List.mem_singleton] at hb2
              subst hb2
              exact ⟨(hcur d0 msgs0 rfl).1, (hcur d0 msgs0 rfl).2⟩
        | false =>
          simp only [loadAux, hh, hm, he] at herr
          exact absurd herr (by simp)

theorem load_wf {t : String} (h : (load t).error = none) :
    ∀ b ∈ (load t).blocks, BlockWF b :=
  loadAux_wf (linesOf t) [] none (linesOf_good t) (by simp)
    (fun _ _ h2 => Option.noConfusion h2) h

/-! ### Where the blocks in the store after `load` come from -/

theorem loadAux_origin : ∀ (lines : List String) (acc : List Block)
    (cur : Option (String × List Message)),
    ∀ b ∈ (loadAux lines acc cur).blocks,
      b ∈ acc ∨ (∃ l ∈ lines, headerMatch l = some b.date) ∨
        (∃ p : String × List Message, cur = some p ∧ b.date = p.1) := by
  intro lines
  induction lines with
  | nil =>
    intro acc cur b hb
    rcases cur with _ | p
    · simp only [loadAux] at hb
      exact Or.inl hb
    · simp only [loadAux] at hb
      exact Or.inl hb
  | cons line rest ih =>
    intro acc cur b hb
    cases hh : headerMatch line with
    | some d =>
      rcases cur with _ | ⟨d0, msgs0⟩
      · simp only [loadAux, hh] at hb
        rcases ih acc (some (d, [])) b hb with h | ⟨l, hl, hl2⟩ | ⟨p, hp, hp2⟩
        · exact Or.inl h
        · exact Or.inr (Or.inl ⟨l, List.mem_cons_of_mem _ hl, hl2⟩)
        · simp only [Option.some.injEq] at hp
          refine Or.inr (Or.inl ⟨line, by simp, ?_⟩)
          rw [hh, hp2, ← hp]
      · simp only [loadAux, hh] at hb
        exact Or.inl hb
    | none =>
      cases hm : messageMatch line with
      | some m =>
        rcases cur with _ | ⟨d0, msgs0⟩
        · simp only [loadAux, hh, hm] at hb
          exact Or.inl hb
        · cases hcf : checkFields m with
          | some e =>
            simp only [loadAux, hh, hm, hcf] at hb
            exact Or.inl hb
          | none =>
            simp only [loadAux, hh, hm, hcf] at hb
            rcases ih acc (some (d0, msgs0 ++ [m])) b hb with h | ⟨l, hl, hl2⟩ | ⟨p, hp, hp2⟩
            · exact Or.inl h
            · exact Or.inr (Or.inl ⟨l, List.mem_cons_of_mem _ hl, hl2⟩)
            · simp only [Option.some.injEq] at hp
              refine Or.inr (Or.inr ⟨(d0, msgs0), rfl, ?_⟩)
              rw [hp2, ← hp]
      | none =>
        cases he : endMatch line with
        | true =>
          rcases cur with _ | ⟨d0, msgs0⟩
          · simp only [loadAux, hh, hm, he] at hb
            exact Or.inl hb
          · simp only [loadAux, hh, hm, he, if_true] at hb
            rcases ih (acc ++ [⟨d0, msgs0⟩]) none b hb with h | ⟨l, hl, hl2⟩ | ⟨p, hp, _⟩
            · rcases List.mem_append.mp h with h | h
              · exact Or.inl h
              · rw [List.mem_singleton] at h
                subst h
                exact Or.inr (Or.inr ⟨(d0, msgs0), rfl, rfl⟩)
            · exact Or.inr (Or.inl ⟨l, List.mem_cons_of_mem _ hl, hl2⟩)
            · exact Option.noConfusion hp
        | false =>
          simp only [loadAux, hh, hm, he] at hb
          exact Or.inl hb

theorem load_blocks_origin (t : String) :
    ∀ b ∈ (load t).blocks, ∃ l ∈ linesOf t, headerMatch l = some b.date := by
  intro b hb
  rcases loadAux_origin (linesOf t) [] none b hb with h | h | ⟨p, hp, _⟩
  · exact absurd h (by simp)
  · exact h
  · exact Option.noConfusion hp

/-! ### Store operations: dates and decompositions -/

theorem addToBlocks_dates (d t r s c : String) : ∀ bs : List Block,
    list_dates (addToBlocks d t r s c bs) =
      if d ∈ list_dates bs then list_dates bs else list_dates bs ++ [d] := by
  intro bs
  induction bs with
  | nil => simp [addToBlocks, list_dates]
  | cons b bs ih =>
    by_cases hb : b.date = d
    · simp [addToBlocks, hb, list_dates]
    · by_cases hd : d ∈ list_dates bs
      · rw [if_pos (by simp [list_dates]; right; simpa [list_dates] using hd)]
        simp only [addToBlocks, if_neg hb, list_dates, List.map_cons]
        rw [show (addToBlocks d t r s c bs).map Block.date = list_dates (addToBlocks d t r s c bs) from rfl,
          ih, if_pos hd]
        rfl
      · rw [if_neg (by simp [list_dates]; exact ⟨fun he => hb he.symm, by simpa [list_dates] using hd⟩)]
        simp only [addToBlocks, if_neg hb, list_dates, List.map_cons]
        rw [show (addToBlocks d t r s c bs).map Block.date = list_dates (addToBlocks d t r s c bs) from rfl,
          ih, if_neg hd]
        rfl

theorem nodup_addToBlocks {bs : List Block} (h : (list_dates bs).Nodup) (d t r s c : String) :
    (list_dates (addToBlocks d t r s c bs)).Nodup := by
  rw [addToBlocks_dates]
  by_cases hd : d ∈ list_dates bs
  · rw [if_pos hd]; exact h
  · rw [if_neg hd]
    simp [List.nodup_append, h, hd]

theorem add_message_fst (st : Store) (d t r s c : String) :
    (add_message st d t r s c).1 = st ∨
      (d ≠ "" ∧ (add_message st d t r s c).1 = addToBlocks d t r s c st) := by
  unfold add_message
  by_cases hd : d = ""
  · rw [if_pos hd]; exact Or.inl rfl
  · rw [if_neg hd]
    by_cases ht : t = ""
    · rw [if_pos ht]; exact Or.inl rfl
    · rw [if_neg ht]
      by_cases hr : r = ""
      · rw [if_pos hr]; exact Or.inl rfl
      · rw [if_neg hr]
        by_cases hs : s = ""
        · rw [if_pos hs]; exact Or.inl rfl
        · rw [if_neg hs]
          by_cases hc : c = ""
          · rw [if_pos hc]; exact Or.inl rfl
          · rw [if_neg hc]; exact Or.inr ⟨hd, rfl⟩

theorem delete_date_dates_sublist (st : Store) (d : String) :
    List.Sublist (list_dates (delete_date st d)) (list_dates st) :=
  (List.filter_sublist st).map Block.date

theorem delete_message_dates (d : String) (i : Int) : ∀ st : Store,
    list_dates (delete_message st d i).1 = list_dates st := by
  intro st
  induction st with
  | nil => rfl
  | cons b bs ih =>
    by_cases hb : b.date = d
    · by_cases hrange : 0 ≤ i ∧ i < (b.messages.length : Int)
      · simp [delete_message, hb, hrange, list_dates]
      · simp [delete_message, hb, hrange, list_dates]
    · simp only [delete_message, if_neg hb, list_dates, List.map_cons]
      rw [show (delete_message bs d i).1.map Block.date = list_dates (delete_message bs d i).1 from rfl, ih]
      rfl

theorem edit_message_dates (d : String) (i : Int) (us : List (String × String)) : ∀ st : Store,
    list_dates (edit_message st d i us).1 = list_dates st := by
  intro st
  induction st with
  | nil => rfl
  | cons b bs ih =>
    by_cases hb : b.date = d
    · by_cases hrange : 0 ≤ i ∧ i < (b.messages.length : Int)
      · simp [edit_message, hb, hrange, list_dates]
      · simp [edit_message, hb, hrange, list_dates]
    · simp only [edit_message, if_neg hb, list_dates, List.map_cons]
      rw [show (edit_message bs d i us).1.map Block.date = list_dates (edit_message bs d i us).1 from rfl, ih]
      rfl

theorem reach_nodup {st : Store} (h : Reach st) : (list_dates st).Nodup := by
  induction h with
  | nil => simp [list_dates]
  | add st d t r s c _ ih =>
    rcases add_message_fst st d t r s c with he | ⟨_, he⟩
    · rw [he]; exact ih
    · rw [he]; exact nodup_addToBlocks ih d t r s c
  | del_date st d _ ih => exact ih.sublist (delete_date_dates_sublist st d)
  | del_msg st d i _ ih => rw [delete_message_dates]; exact ih
  | edit st d i us _ ih => rw [edit_message_dates]; exact ih

theorem date_mem_of_mem {st : Store} {b : Block} (hb : b ∈ st) : b.date ∈ list_dates st :=
  List.mem_map_of_mem Block.date hb

theorem mem_dates_ne {st : Store} (h : ∀ b ∈ st, b.date ≠ "") :
    ∀ x ∈ list_dates st, x ≠ "" := by
  intro x hx
  rw [list_dates, List.mem_map] at hx
  obtain ⟨b, hb, rfl⟩ := hx
  exact h b hb

theorem reach_dates_ne {st : Store} (h : Reach st) : ∀ b ∈ st, b.date ≠ "" := by
  induction h with
  | nil => simp
  | add st d t r s c _ ih =>
    intro b hb
    rcases add_message_fst st d t r s c with he | ⟨hd, he⟩
    · rw [he] at hb; exact ih b hb
    · rw [he] at hb
      have hmem := date_mem_of_mem hb
      rw [addToBlocks_dates] at hmem
      by_cases hc : d ∈ list_dates st
      · rw [if_pos hc] at hmem
        exact mem_dates_ne ih b.date hmem
      · rw [if_neg hc] at hmem
        rcases List.mem_append.mp hmem with hmem | hmem
        · exact mem_dates_ne ih b.date hmem
        · rw [List.mem_singleton] at hmem
          rw [hmem]; exact hd
  | del_date st d _ ih =>
    intro b hb
    exact ih b (List.mem_of_mem_filter hb)
  | del_msg st d i _ ih =>
    intro b hb
    have := date_mem_of_mem hb
    rw [delete_message_dates] at this
    exact mem_dates_ne ih b.date this
  | edit st d i us _ ih =>
    intro b hb
    have := date_mem_of_mem hb
    rw [edit_message_dates] at this
    exact mem_dates_ne ih b.date this

theorem addToBlocks_found {d t r s c : String} : ∀ (pre : List Block) (b : Block)
    (post : List Block), (∀ p ∈ pre, p.date ≠ d) → b.date = d →
    addToBlocks d t r s c (pre ++ b :: post) =
      pre ++ ⟨b.date, b.messages ++ [mkMsg t r s c]⟩ :: post := by
  intro pre
  induction pre with
  | nil =>
    intro b post _ hb
    simp [addToBlocks, hb]
  | cons p pre ih =>
    intro b post hpre hb
    rw [List.cons_append, show addToBlocks d t r s c (p :: (pre ++ b :: post)) =
      if p.date = d then ⟨p.date, p.messages ++ [mkMsg t r s c]⟩ :: (pre ++ b :: post)
      else p :: addToBlocks d t r s c (pre ++ b :: post) from rfl]
    rw [if_neg (hpre p (by simp))]
    rw [ih b post (fun x hx => hpre x (List.mem_cons_of_mem p hx)) hb]
    rfl

theorem delete_message_oob {d : String} {i : Int} : ∀ (pre : List Block) (b : Block)
    (post : List Block), (∀ p ∈ pre, p.date ≠ d) → b.date = d →
    ¬(0 ≤ i ∧ i < (b.messages.length : Int)) →
    delete_message (pre ++ b :: post) d i =
      (pre ++ b :: post, some ("Invalid message index: " ++ toString i)) := by
  intro pre
  induction pre with
  | nil =>
    intro b post _ hb hrange
    rw [List.nil_append]
    show (if b.date = d then _ else _) = _
    rw [if_pos hb, if_neg hrange]
  | cons p pre ih =>
    intro b post hpre hb hrange
    rw [List.cons_append]
    show (if p.date = d then _
      else (p :: (delete_message (pre ++ b :: post) d i).1, (delete_message (pre ++ b :: post) d i).2)) = _
    rw [if_neg (hpre p (by simp))]
    rw [ih b post (fun x hx => hpre x (List.mem_cons_of_mem p hx)) hb hrange]

theorem applyUpdates_two {m : Message} {k1 v1 k2 v2 : String} (h1 : validKey k1 = true)
    (h2 : v1 ≠ "") (h3 : validKey k2 = false ∨ v2 = "") :
    ∃ e, applyUpdates m [(k1, v1), (k2, v2)] = (setField m k1 v1, some e) := by
  have hstep : applyUpdates m [(k1, v1), (k2, v2)] =
      applyUpdates (setField m k1 v1) [(k2, v2)] := by
    show (if validKey k1 = false then _ else if v1 = "" then _ else _) = _
    rw [if_neg (by rw [h1]; simp), if_neg h2]
  rcases h3 with h3 | h3
  · refine ⟨"Invalid field for edit: " ++ k2, ?_⟩
    rw [hstep]
    show (if validKey k2 = false then ((setField m k1 v1), some ("Invalid field for edit: " ++ k2))
      else _) = _
    rw [if_pos h3]
  · by_cases hk2 : validKey k2 = false
    · refine ⟨"Invalid field for edit: " ++ k2, ?_⟩
      rw [hstep]
      show (if validKey k2 = false then ((setField m k1 v1), some ("Invalid field for edit: " ++ k2))
        else _) = _
      rw [if_pos hk2]
    · refine ⟨"Empty value not allowed for " ++ k2, ?_⟩
      rw [hstep]
      show (if validKey k2 = false then _
        else if v2 = "" then ((setField m k1 v1), some ("Empty value not allowed for " ++ k2))
        else _) = _
      rw [if_neg hk2, if_pos h3]

theorem edit_message_partial {d : String} {i : Int} {k1 v1 k2 v2 : String} :
    ∀ (pre : List Block) (b : Block) (post : List Block),
    (∀ p ∈ pre, p.date ≠ d) → b.date = d →
    0 ≤ i → i < (b.messages.length : Int) →
    validKey k1 = true → v1 ≠ "" → (validKey k2 = false ∨ v2 = "") →
    ∃ e, edit_message (pre ++ b :: post) d i [(k1, v1), (k2, v2)] =
      (pre ++ ⟨b.date, b.messages.set i.toNat
        (setField (b.messages.getD i.toNat ⟨"", "", "", ""⟩) k1 v1)⟩ :: post, some e) := by
  intro pre
  induction pre with
  | nil =>
    intro b post _ hb h0 hlen hk1 hv1 hbad
    obtain ⟨e, he⟩ := applyUpdates_two (m := b.messages.getD i.toNat ⟨"", "", "", ""⟩)
      hk1 hv1 hbad
    refine ⟨e, ?_⟩
    rw [List.nil_append]
    show (if b.date = d then
        if 0 ≤ i ∧ i < (b.messages.length : Int) then _ else _
      else _) = _
    rw [if_pos hb, if_pos ⟨h0, hlen⟩, he]
    simp
  | cons p pre ih =>
    intro b post hpre hb h0 hlen hk1 hv1 hbad
    obtain ⟨e, he⟩ := ih b post (fun x hx => hpre x (List.mem_cons_of_mem p hx)) hb h0 hlen
      hk1 hv1 hbad
    refine ⟨e, ?_⟩
    rw [List.cons_append]
    show (if p.date = d then _
      else (p :: (edit_message (pre ++ b :: post) d i [(k1, v1), (k2, v2)]).1,
        (edit_message (pre ++ b :: post) d i [(k1, v1), (k2, v2)]).2)) = _
    rw [if_neg (hpre p (by simp)), he]
    simp

/-! ### Stores built by good add_message calls round-trip -/

theorem timeShape_ne {t : String} (h : timeShape t = true) : t ≠ "" := by
  unfold timeShape at h
  split at h
  · rename_i heq
    exact ne_empty_of_data (by rw [heq]; simp)
  · exact absurd h (by simp)

theorem timeShape_noCRLF {t : String} (h : timeShape t = true) : noCRLF t := by
  have h1 := takeTime_complete h []
  have h2 := takeTime_sound h1
  intro c hc
  exact h2.2.2.2 c hc

theorem noCRLF_renderMessage {m : Message} (ht : noCRLF m.time) (hr : noCRLF m.receiver)
    (hs : noCRLF m.sender) (hc : noCRLF m.content) : noCRLF (renderMessage m) := by
  have h1 : ∀ x ∈ msgPre, x ≠ '\n' ∧ x ≠ '\r' := by decide
  have h2 : ∀ x ∈ sepTime, x ≠ '\n' ∧ x ≠ '\r' := by decide
  have h3 : ∀ x ∈ sep1, x ≠ '\n' ∧ x ≠ '\r' := by decide
  have h4 : ∀ x ∈ sep2, x ≠ '\n' ∧ x ≠ '\r' := by decide
  have h5 : ∀ x ∈ endSuf, x ≠ '\n' ∧ x ≠ '\r' := by decide
  intro c hc2
  rw [renderMessage_data] at hc2
  rcases List.mem_append.mp hc2 with h | h
  · exact h1 c h
  rcases List.mem_append.mp h with h | h
  · exact ht c h
  rcases List.mem_append.mp h with h | h
  · exact h2 c h
  rcases List.mem_append.mp h with h | h
  · exact hr c h
  rcases List.mem_append.mp h with h | h
  · exact h3 c h
  rcases List.mem_append.mp h with h | h
  · exact hs c h
  rcases List.mem_append.mp h with h | h
  · exact h4 c h
  rcases List.mem_append.mp h with h | h
  · exact hc c h
  · exact h5 c h

theorem goodAdd_msgWF {d t r s c : String} (hg : GoodAdd d t r s c) :
    MsgWF (mkMsg t r s c) := by
  obtain ⟨_, _, ht, hr, hrcrlf, hrsharp, hs, hscrlf, hssharp, hc, hccrlf⟩ := hg
  constructor
  · exact messageMatch_render (mkMsg t r s c) ht hr hs hc
      (fun ch hch => ⟨(hrcrlf ch hch).1, hrsharp ch hch⟩)
      (fun ch hch => ⟨(hscrlf ch hch).1, hssharp ch hch⟩)
      (fun ch hch => (hccrlf ch hch).1)
  · exact noCRLF_renderMessage (timeShape_noCRLF ht) hrcrlf hscrlf hccrlf

theorem addToBlocks_wf {bs : List Block} (h : ∀ b ∈ bs, BlockWF b) {d t r s c : String}
    (hg : GoodAdd d t r s c) : ∀ b ∈ addToBlocks d t r s c bs, BlockWF b := by
  have hmsg : MsgWF (mkMsg t r s c) := goodAdd_msgWF hg
  induction bs with
  | nil =>
    intro b hb
    simp only [addToBlocks, List.mem_singleton] at hb
    subst hb
    refine ⟨hg.2.1, ?_⟩
    intro m hm
    rw [List.mem_singleton] at hm
    subst hm
    exact hmsg
  | cons b0 bs ih =>
    intro b hb
    by_cases hb0 : b0.date = d
    · rw [show addToBlocks d t r s c (b0 :: bs) =
        ⟨b0.date, b0.messages ++ [mkMsg t r s c]⟩ :: bs from by rw [addToBlocks, if_pos hb0]] at hb
      rcases List.mem_cons.mp hb with rfl | hb
      · refine ⟨(h b0 (by simp)).1, ?_⟩
        intro m hm
        rcases List.mem_append.mp hm with hm | hm
        · exact (h b0 (by simp)).2 m hm
        · rw [List.mem_singleton] at hm
          subst hm
          exact hmsg
      · exact h b (List.mem_cons_of_mem b0 hb)
    · rw [show addToBlocks d t r s c (b0 :: bs) =
        b0 :: addToBlocks d t r s c bs from by rw [addToBlocks, if_neg hb0]] at hb
      rcases List.mem_cons.mp hb with rfl | hb
      · exact h b (by simp)
      · exact ih (fun x hx => h x (List.mem_cons_of_mem b0 hx)) b hb

theorem builtGood_wf {st : Store} (h : BuiltGood st) : ∀ b ∈ st, BlockWF b := by
  induction h with
  | nil => simp
  | step st d t r s c _ hg ih =>
    obtain ⟨hd, _, ht, hr, _, _, hs, _, _, hc, _⟩ := hg
    have he : (add_message st d t r s c).1 = addToBlocks d t r s c st := by
      unfold add_message
      rw [if_neg hd, if_neg (timeShape_ne ht), if_neg hr, if_neg hs, if_neg hc]
    rw [he]
    exact addToBlocks_wf ih ⟨hd, by assumption, ht, hr, by assumption, by assumption, hs,
      by assumption, by assumption, hc, by assumption⟩

/-! ### The search filter -/

theorem keepMsg_eq_amended (sdr rcv txt : Option String) :
    keepMsg sdr rcv txt = keepMsgAmended sdr rcv txt := by
  funext m
  unfold keepMsg keepMsgAmended filterApplies
  rcases sdr with _ | s <;> rcases rcv with _ | r <;> rcases txt with _ | t <;>
    simp [Option.getD, bne]

theorem search_messages_eq_amended (st : Store) (sdr rcv txt : Option String) :
    search_messages st sdr rcv txt = search_messages_amended st sdr rcv txt := by
  unfold search_messages search_messages_amended
  rw [keepMsg_eq_amended]

/-! ### The claims -/

/-- C1 counterexample: on this input `load` raises a structural error on
the third line, yet the block completed before the error remains in the
store — the claim that no blocks parsed from the failing input remain on
failure is false. -/
theorem C1_counterexample :
    (load "#$* date -* d *- #$*\n*$# end *$#\nbadline").error.isSome = true ∧
      (load "#$* date -* d *- #$*\n*$# end *$#\nbadline").blocks ≠ [] := by
  decide

/-- C1 (amended): `load` discards the prior store content
unconditionally, and on failure the store retains exactly the blocks
closed before the failing line — in particular every block present after
the call, whether it succeeded or failed, originates from a date-header
line of the given text (none survives from before the call). -/
theorem C1_load_partial_from_input (t : String) :
    ∀ b ∈ (load t).blocks, ∃ l ∈ linesOf t, headerMatch l = some b.date :=
  load_blocks_origin t

/-- C1 witness: the partially populated store after the failing load
above holds a block whose date comes from a header line of the text. -/
theorem C1_witness :
    ∃ l ∈ linesOf "#$* date -* d *- #$*\n*$# end *$#\nbadline", headerMatch l = some "d" :=
  C1_load_partial_from_input "#$* date -* d *- #$*\n*$# end *$#\nbadline"
    ⟨"d", []⟩ (by decide)

/-- C2 counterexample: `add_message` accepts any non-empty time string,
but `dumps` then produces a message line whose time does not match
`\d{2}:\d{2}:\d{2}`, so `load` rejects the dumped text: the round trip
fails for a store built by successful `add_message` calls with non-empty
arguments. -/
theorem C2_counterexample :
    (add_message [] "d" "x" "r" "s" "c").2 = none ∧
      (load (dumps (add_message [] "d" "x" "r" "s" "c").1)).error ≠ none := by
  decide

/-- C2 (amended): for every store built from the empty store by
`add_message` calls whose arguments are non-empty, contain no line
terminator, whose time has the `HH:MM:SS` digit shape and whose receiver
and sender contain no `#` character, `load (dumps store)` succeeds and
returns exactly the store's block sequence. -/
theorem C2_roundtrip_of_good_adds (st : Store) (h : BuiltGood st) :
    load (dumps st) = ⟨st, none⟩ :=
  load_dumps (builtGood_wf h)

/-- C2 witness: one good `add_message` call on the empty store, with the
dumped text parsing back to the same single block. -/
theorem C2_witness :
    load (dumps (add_message [] "2024-01-01" "09:00:00" "Bob" "Alice" "hello").1) =
      ⟨(add_message [] "2024-01-01" "09:00:00" "Bob" "Alice" "hello").1, none⟩ :=
  C2_roundtrip_of_good_adds _
    (BuiltGood.step [] "2024-01-01" "09:00:00" "Bob" "Alice" "hello" BuiltGood.nil
      ⟨by decide, by unfold noCRLF; decide, by decide, by decide, by unfold noCRLF; decide,
        by decide, by decide, by unfold noCRLF; decide, by decide, by decide,
        by unfold noCRLF; decide⟩)

/-- C3: for every text on which `load` succeeds, dumping the parsed
blocks and loading again succeeds and yields exactly the same block
sequence (same dates and messages in the same order). -/
theorem C3_load_dumps_load (t : String) (h : (load t).error = none) :
    load (dumps (load t).blocks) = ⟨(load t).blocks, none⟩ :=
  load_dumps (load_wf h)

/-- C3 witness: the spec's own scenario text round-trips. -/
theorem C3_witness :
    (load "#$* date -* 2024-01-01 *- #$*\n@# 09:00:00 #@ $# Bob #$ *# Alice #* content -*&^# hello #^&*-\n*$# end *$#").error = none ∧
    load (dumps (load "#$* date -* 2024-01-01 *- #$*\n@# 09:00:00 #@ $# Bob #$ *# Alice #* content -*&^# hello #^&*-\n*$# end *$#").blocks) =
      ⟨(load "#$* date -* 2024-01-01 *- #$*\n@# 09:00:00 #@ $# Bob #$ *# Alice #* content -*&^# hello #^&*-\n*$# end *$#").blocks, none⟩ :=
  ⟨by decide, C3_load_dumps_load _ (by decide)⟩

/-- C4 counterexample: `load` performs no duplicate-date merging, so a
text repeating the same date header produces a reachable store with two
blocks of the same date. -/
theorem C4_counterexample :
    (load "#$* date -* d *- #$*\n*$# end *$#\n#$* date -* d *- #$*\n*$# end *$#").error = none ∧
      ¬ (list_dates (load "#$* date -* d *- #$*\n*$# end *$#\n#$* date -* d *- #$*\n*$# end *$#").blocks).Nodup := by
  decide

/-- C4 (amended): every store reachable from the empty store through the
mutation operations (`add_message`, `delete_date`, `delete_message`,
`edit_message`) has at most one block per distinct date; `load` is the
one provided operation that can break this. -/
theorem C4_mutations_nodup_dates (st : Store) (h : Reach st) :
    (list_dates st).Nodup :=
  reach_nodup h

/-- C4 witness: one `add_message` on the empty store yields
duplicate-free dates. -/
theorem C4_witness :
    (list_dates (add_message [] "d" "09:00:00" "r" "s" "c").1).Nodup :=
  C4_mutations_nodup_dates _ (Reach.add [] "d" "09:00:00" "r" "s" "c" Reach.nil)

/-- C5 counterexample: `HEADER_RE`'s date group is `.*?`, which matches
the empty string, and `load` never checks the captured date for
emptiness, so a block with an empty date is produced from accepted
text. -/
theorem C5_counterexample :
    (load "#$* date -*  *- #$*\n*$# end *$#").error = none ∧
      ¬ (∀ b ∈ (load "#$* date -*  *- #$*\n*$# end *$#").blocks, b.date ≠ "") := by
  decide

/-- C5 (amended): every block of a store reachable from the empty store
through the mutation operations has a non-empty date (enforced by
`add_message`'s field check); `load`, however, accepts an empty date
capture. -/
theorem C5_mutations_dates_nonempty (st : Store) (h : Reach st) :
    ∀ b ∈ st, b.date ≠ "" :=
  reach_dates_ne h

/-- C5 witness: the block created by one `add_message` has the non-empty
date it was given. -/
theorem C5_witness : (Block.mk "d" [mkMsg "09:00:00" "r" "s" "c"]).date ≠ "" :=
  C5_mutations_dates_nonempty (add_message [] "d" "09:00:00" "r" "s" "c").1
    (Reach.add [] "d" "09:00:00" "r" "s" "c" Reach.nil)
    ⟨"d", [mkMsg "09:00:00" "r" "s" "c"]⟩ (by decide)

/-- C6 counterexample: the guards in `search_messages` test Python
truthiness, so an empty-string sender filter imposes no constraint,
while the claim's exact-equality reading would match no message here. -/
theorem C6_counterexample :
    search_messages [⟨"d", [mkMsg "09:00:00" "Bob" "Alice" "hello"]⟩] (some "") none none ≠
      search_messages_claim [⟨"d", [mkMsg "09:00:00" "Bob" "Alice" "hello"]⟩] (some "") none none := by
  decide

/-- C6 (amended): `search_messages` returns, in block-then-message
order and annotated with the owning date, exactly the messages passing
every filter, where a filter that is omitted or supplied as the empty
string imposes no constraint, sender and receiver filters require exact
equality and a text filter requires substring containment; it returns an
empty list rather than an error when nothing matches. -/
theorem C6_search_filters (st : Store) (sdr rcv txt : Option String) :
    search_messages st sdr rcv txt = search_messages_amended st sdr rcv txt :=
  search_messages_eq_amended st sdr rcv txt

/-- C7: `add_message` with the date of an existing block (the one the
lookup loop finds) appends the new message to that block, creates no
new block, and leaves `list_dates` (hence its length) unchanged. -/
theorem C7_add_existing_date (pre : List Block) (b : Block) (post : List Block)
    (d t r s c : String) (hpre : ∀ p ∈ pre, p.date ≠ d) (hb : b.date = d)
    (hd : d ≠ "") (ht : t ≠ "") (hr : r ≠ "") (hs : s ≠ "") (hc : c ≠ "") :
    add_message (pre ++ b :: post) d t r s c =
      (pre ++ ⟨b.date, b.messages ++ [mkMsg t r s c]⟩ :: post, none) ∧
    list_dates (add_message (pre ++ b :: post) d t r s c).1 = list_dates (pre ++ b :: post) ∧
    (list_dates (add_message (pre ++ b :: post) d t r s c).1).length =
      (list_dates (pre ++ b :: post)).length := by
  have he : add_message (pre ++ b :: post) d t r s c =
      (addToBlocks d t r s c (pre ++ b :: post), none) := by
    unfold add_message
    rw [if_neg hd, if_neg ht, if_neg hr, if_neg hs, if_neg hc]
  rw [he, addToBlocks_found pre b post hpre hb]
  exact ⟨rfl, by simp [list_dates], by simp [list_dates]⟩

/-- C7 witness. -/
theorem C7_witness :
    add_message [⟨"d", [mkMsg "09:00:00" "Bob" "Alice" "hi"]⟩] "d" "10:00:00" "r" "s" "c" =
      ([⟨"d", [mkMsg "09:00:00" "Bob" "Alice" "hi", mkMsg "10:00:00" "r" "s" "c"]⟩], none) ∧
    list_dates (add_message [⟨"d", [mkMsg "09:00:00" "Bob" "Alice" "hi"]⟩] "d" "10:00:00" "r" "s" "c").1 =
      list_dates [⟨"d", [mkMsg "09:00:00" "Bob" "Alice" "hi"]⟩] ∧
    (list_dates (add_message [⟨"d", [mkMsg "09:00:00" "Bob" "Alice" "hi"]⟩] "d" "10:00:00" "r" "s" "c").1).length =
      (list_dates [⟨"d", [mkMsg "09:00:00" "Bob" "Alice" "hi"]⟩]).length :=
  C7_add_existing_date [] ⟨"d", [mkMsg "09:00:00" "Bob" "Alice" "hi"]⟩ []
    "d" "10:00:00" "r" "s" "c" (by simp) rfl (by decide) (by decide) (by decide)
    (by decide) (by decide)

/-- C8: `delete_message` on the block its date lookup finds, with an
index outside that block's message sequence, fails with a structural
error and leaves the whole store unchanged. -/
theorem C8_delete_message_oob (pre : List Block) (b : Block) (post : List Block)
    (d : String) (i : Int) (hpre : ∀ p ∈ pre, p.date ≠ d) (hb : b.date = d)
    (hi : ¬(0 ≤ i ∧ i < (b.messages.length : Int))) :
    (delete_message (pre ++ b :: post) d i).1 = pre ++ b :: post ∧
      (delete_message (pre ++ b :: post) d i).2.isSome = true := by
  rw [delete_message_oob pre b post hpre hb hi]
  exact ⟨rfl, rfl⟩

/-- C8 witness. -/
theorem C8_witness :
    (delete_message [⟨"d", [mkMsg "09:00:00" "Bob" "Alice" "hi"]⟩] "d" 5).1 =
      [⟨"d", [mkMsg "09:00:00" "Bob" "Alice" "hi"]⟩] ∧
    (delete_message [⟨"d", [mkMsg "09:00:00" "Bob" "Alice" "hi"]⟩] "d" 5).2.isSome = true :=
  C8_delete_message_oob [] ⟨"d", [mkMsg "09:00:00" "Bob" "Alice" "hi"]⟩ [] "d" 5
    (by simp) rfl (by decide)

/-- C9: whenever the message-line pattern matches, all four captured
fields are non-empty, so the per-field `Missing field` check of `load`
(embedded as `checkFields`) never fires. -/
theorem C9_matched_fields_nonempty (l : String) (m : Message)
    (h : messageMatch l = some m) :
    (m.time ≠ "" ∧ m.receiver ≠ "" ∧ m.sender ≠ "" ∧ m.content ≠ "") ∧
      checkFields m = none := by
  obtain ⟨_, ht, hr, hs, hc⟩ := messageMatch_sound h
  exact ⟨⟨ht, hr, hs, hc⟩, checkFields_none ht hr hs hc⟩

/-- C9 witness. -/
theorem C9_witness :
    ((mkMsg "09:00:00" "Bob" "Alice" "hello").time ≠ "" ∧
      (mkMsg "09:00:00" "Bob" "Alice" "hello").receiver ≠ "" ∧
      (mkMsg "09:00:00" "Bob" "Alice" "hello").sender ≠ "" ∧
      (mkMsg "09:00:00" "Bob" "Alice" "hello").content ≠ "") ∧
    checkFields (mkMsg "09:00:00" "Bob" "Alice" "hello") = none :=
  C9_matched_fields_nonempty
    "@# 09:00:00 #@ $# Bob #$ *# Alice #* content -*&^# hello #^&*-"
    (mkMsg "09:00:00" "Bob" "Alice" "hello") (by decide)

/-- C10: `edit_message` applies the update pairs in iteration order with
partial effect: a valid pair followed by an invalid key or empty value
fails the call, but the field named by the earlier valid pair has
already been overwritten in the stored message. -/
theorem C10_edit_partial_effect (pre : List Block) (b : Block) (post : List Block)
    (d : String) (i : Int) (k1 v1 k2 v2 : String) (hpre : ∀ p ∈ pre, p.date ≠ d)
    (hb : b.date = d) (h0 : 0 ≤ i) (hlen : i < (b.messages.length : Int))
    (hk1 : validKey k1 = true) (hv1 : v1 ≠ "") (hbad : validKey k2 = false ∨ v2 = "") :
    ∃ e, edit_message (pre ++ b :: post) d i [(k1, v1), (k2, v2)] =
      (pre ++ ⟨b.date, b.messages.set i.toNat
        (setField (b.messages.getD i.toNat ⟨"", "", "", ""⟩) k1 v1)⟩ :: post, some e) :=
  edit_message_partial pre b post hpre hb h0 hlen hk1 hv1 hbad

/-- C10 witness: a valid `time` update followed by an invalid key fails
but leaves the time overwritten. -/
theorem C10_witness :
    ∃ e, edit_message [⟨"d", [mkMsg "09:00:00" "Bob" "Alice" "hi"]⟩] "d" 0
        [("time", "10:00:00"), ("bogus", "x")] =
      ([⟨"d", [mkMsg "10:00:00" "Bob" "Alice" "hi"]⟩], some e) :=
  C10_edit_partial_effect [] ⟨"d", [mkMsg "09:00:00" "Bob" "Alice" "hi"]⟩ [] "d" 0
    "time" "10:00:00" "bogus" "x" (by simp) rfl (by decide) (by decide) (by decide)
    (by decide) (Or.inl (by decide))

end CFML
